import Mathlib

/-!
Verification of `maxcalorie.hh`: two 0/1-knapsack solvers (exhaustive
bit-mask search and dynamic programming) over food items, plus the
filter and aggregation utilities that feed them.

Numbers held in C++ `double` variables are modelled as rationals `ℚ`;
the algorithmic content (comparisons, sums, the DP table) uses only
field operations and order, which `ℚ` reflects exactly.  A C++
conversion of a non-negative `double` to an integer index truncates,
which is modelled with `Int.toNat ⌊·⌋` (the two agree on non-negative
values, and every such conversion below is guarded so that the value
is non-negative).
-/

/-- One food item available for purchase (`class FoodItem`).
`description` must be non-empty and `weight` positive (constructor
assertions); where a theorem needs those invariants it takes them as
hypotheses. -/
structure FoodItem where
  description : String
  weight : ℚ
  calories : ℚ
deriving DecidableEq, Repr

/-- Placeholder item used only to give `List.getD` a default; every
`getD` access below is in bounds, mirroring `foods[j]` in the C++. -/
def defaultFood : FoodItem := ⟨"", 0, 0⟩

/-- The function `sum_food_vector`: total weight and total calories of a vector,
accumulated left to right as the C++ loop does.  Returns the pair
`(total_weight, total_calories)`. -/
def sum_food_vector (foods : List FoodItem) : ℚ × ℚ :=
  foods.foldl (fun acc food => (acc.1 + food.weight, acc.2 + food.calories)) (0, 0)

/-- Total weight of a collection, as a plain sum. -/
def totalWeight (foods : List FoodItem) : ℚ :=
  (foods.map FoodItem.weight).sum

/-- Total calories of a collection, as a plain sum. -/
def totalCalories (foods : List FoodItem) : ℚ :=
  (foods.map FoodItem.calories).sum

/-- The function `filter_food_vector`: keep, in source order, the first `total_size`
items whose calories are strictly positive and within
`[min_calories, max_calories]`; a non-positive `total_size` is a usage
error yielding no result (`nullptr`, modelled as `none`). -/
def filter_food_vector (source : List FoodItem) (min_calories max_calories : ℚ)
    (total_size : Int) : Option (List FoodItem) :=
  if total_size ≤ 0 then
    none
  else
    some (source.foldl
      (fun newFood foods =>
        if 0 < foods.calories ∧ min_calories ≤ foods.calories ∧
            foods.calories ≤ max_calories ∧ (newFood.length : Int) < total_size then
          newFood ++ [foods]
        else newFood)
      [])

/-- The candidate subset selected by bit-mask `i`: the inner loop
`for j; if ((i >> j) & 1) == 1 push_back(foods[j])` of
`exhaustive_max_calories`. -/
def maskCandidate (foods : List FoodItem) (i : ℕ) : List FoodItem :=
  ((List.range foods.length).filter (fun j => i.testBit j)).map
    (fun j => foods.getD j defaultFood)

/-- One iteration of the exhaustive search loop: if the candidate's
weight fits and the best so far is empty or has strictly fewer
calories, the candidate becomes the new best. -/
def exhaustiveStep (foods : List FoodItem) (total_weight : ℚ)
    (best : List FoodItem) (i : ℕ) : List FoodItem :=
  let candidate := maskCandidate foods i
  if (sum_food_vector candidate).1 ≤ total_weight ∧
      (best = [] ∨ (sum_food_vector best).2 < (sum_food_vector candidate).2) then
    candidate
  else best

/-- The function `exhaustive_max_calories`: enumerate the masks `0 … 2^n − 1` and
fold the best-so-far update over them, starting from the empty best.
The C++ computes the loop bound as `int nSquared = pow(2, n)`, which is
exactly `2^n` only while that value fits the `int` (for a 32-bit `int`,
`n ≤ 30`); for larger `n` the conversion overflows (undefined
behaviour), so this embedding is faithful to the source only on
`foods.length ≤ 30`, and the theorems below about the full enumeration
carry that bound as a hypothesis. -/
def exhaustive_max_calories (foods : List FoodItem) (total_weight : ℚ) : List FoodItem :=
  (List.range (2 ^ foods.length)).foldl (exhaustiveStep foods total_weight) []

/-- The DP table `K` of `dynamic_max_calories`, as a function of the
row `i` (number of leading items considered) and column `w`
(remaining integer capacity).  The C++ take-branch index
`w - foods[i-1]->weight()` is a `double` converted to an unsigned
index, modelled by `Int.toNat ⌊·⌋`; the branch guard makes the value
non-negative. -/
def knapK (foods : List FoodItem) : ℕ → ℕ → ℚ
  | 0, _ => 0
  | _ + 1, 0 => 0
  | i + 1, w + 1 =>
    let x := foods.getD i defaultFood
    if x.weight ≤ ((w : ℚ) + 1) then
      max (x.calories + knapK foods i (Int.toNat ⌊((w : ℚ) + 1) - x.weight⌋))
        (knapK foods i (w + 1))
    else
      knapK foods i (w + 1)

/-- The backward reconstruction walk of `dynamic_max_calories`,
returning the 0-based indices of the chosen items in the order the C++
pushes them (item `i−1` first, walking `i = n, …, 1`).  The update
`w -= foods[i-1]->weight()` stores a `double` difference back into the
`int` capacity, modelled by `Int.toNat ⌊·⌋` (non-negative in the taken
branch). -/
def reconstructIdx (foods : List FoodItem) : ℕ → ℕ → List ℕ
  | 0, _ => []
  | i + 1, w =>
    if knapK foods (i + 1) w = knapK foods i w then
      reconstructIdx foods i w
    else
      i :: reconstructIdx foods i (Int.toNat ⌊(w : ℚ) - (foods.getD i defaultFood).weight⌋)

/-- The function `dynamic_max_calories`: build the table, walk backward from
`(n, W)`, and return the chosen items in push order. -/
def dynamic_max_calories (foods : List FoodItem) (total_weight : ℕ) : List FoodItem :=
  (reconstructIdx foods foods.length total_weight).map
    (fun j => foods.getD j defaultFood)

/-- Mathematical optimum: the greatest total calories of any subset of
`l` (scanned front to back) whose total weight is at most `w`; the
empty subset contributes the base value `0`. -/
def maxSubCal : List FoodItem → ℚ → ℚ
  | [], _ => 0
  | x :: l, w =>
    if x.weight ≤ w then
      max (maxSubCal l w) (x.calories + maxSubCal l (w - x.weight))
    else
      maxSubCal l w

/-- Structural form of `maskCandidate`: bit 0 decides the head, the
remaining bits select from the tail. -/
def candAux : ℕ → List FoodItem → List FoodItem
  | _, [] => []
  | m, x :: l => if m % 2 = 1 then x :: candAux (m / 2) l else candAux (m / 2) l

/-! ### Aggregation lemmas -/

@[simp]
lemma totalWeight_nil : totalWeight [] = 0 := rfl

@[simp]
lemma totalCalories_nil : totalCalories [] = 0 := rfl

@[simp]
lemma totalWeight_cons (x : FoodItem) (l : List FoodItem) :
    totalWeight (x :: l) = x.weight + totalWeight l := by
  simp [totalWeight]

@[simp]
lemma totalCalories_cons (x : FoodItem) (l : List FoodItem) :
    totalCalories (x :: l) = x.calories + totalCalories l := by
  simp [totalCalories]

lemma sum_food_vector_foldl (l : List FoodItem) (a b : ℚ) :
    l.foldl (fun acc food => (acc.1 + food.weight, acc.2 + food.calories)) (a, b)
      = (a + totalWeight l, b + totalCalories l) := by
  induction l generalizing a b with
  | nil => simp
  | cons x l ih => rw [List.foldl_cons, ih]; simp [add_assoc]

lemma sum_food_vector_eq (l : List FoodItem) :
    sum_food_vector l = (totalWeight l, totalCalories l) := by
  simpa [sum_food_vector] using sum_food_vector_foldl l 0 0

lemma totalWeight_nonneg {l : List FoodItem} (h : ∀ x ∈ l, 0 ≤ x.weight) :
    0 ≤ totalWeight l := by
  induction l with
  | nil => simp
  | cons x l ih =>
    have hx := h x (List.mem_cons_self x l)
    have hl := ih fun y hy => h y (List.mem_cons_of_mem x hy)
    simp only [totalWeight_cons]
    linarith

lemma totalWeight_pos {l : List FoodItem} (hne : l ≠ [])
    (h : ∀ x ∈ l, 0 < x.weight) : 0 < totalWeight l := by
  cases l with
  | nil => exact absurd rfl hne
  | cons x l =>
    have hx := h x (List.mem_cons_self x l)
    have hl : 0 ≤ totalWeight l :=
      totalWeight_nonneg fun y hy => (h y (List.mem_cons_of_mem x hy)).le
    simp only [totalWeight_cons]
    linarith

lemma totalCalories_nonneg {l : List FoodItem} (h : ∀ x ∈ l, 0 ≤ x.calories) :
    0 ≤ totalCalories l := by
  induction l with
  | nil => simp
  | cons x l ih =>
    have hx := h x (List.mem_cons_self x l)
    have hl := ih fun y hy => h y (List.mem_cons_of_mem x hy)
    simp only [totalCalories_cons]
    linarith

/-! ### Filter stage -/

/-- The matching test of the filter, as a Boolean predicate. -/
def caloriesMatch (min_calories max_calories : ℚ) (x : FoodItem) : Bool :=
  decide (0 < x.calories ∧ min_calories ≤ x.calories ∧ x.calories ≤ max_calories)

lemma filter_foldl_eq (mn mx : ℚ) (ts : Int) :
    ∀ (src acc : List FoodItem),
      src.foldl
        (fun newFood foods =>
          if 0 < foods.calories ∧ mn ≤ foods.calories ∧
              foods.calories ≤ mx ∧ (newFood.length : Int) < ts then
            newFood ++ [foods]
          else newFood)
        acc
      = acc ++ (src.filter (caloriesMatch mn mx)).take (ts - acc.length).toNat := by
  intro src
  induction src with
  | nil => intro acc; simp
  | cons x src ih =>
    intro acc
    rw [List.foldl_cons]
    by_cases hm : 0 < x.calories ∧ mn ≤ x.calories ∧ x.calories ≤ mx
    · have hmb : caloriesMatch mn mx x = true := by
        simp [caloriesMatch, hm.1, hm.2.1, hm.2.2]
      by_cases hlen : (acc.length : Int) < ts
      · rw [if_pos ⟨hm.1, hm.2.1, hm.2.2, hlen⟩, ih]
        have htake : (ts - acc.length).toNat = ((ts - (acc ++ [x]).length).toNat) + 1 := by
          simp only [List.length_append, List.length_cons, List.length_nil]
          omega
        rw [List.filter_cons_of_pos hmb, htake, List.take_succ_cons,
          List.append_assoc]
        simp
      · rw [if_neg (by tauto), ih]
        have h0 : (ts - acc.length).toNat = 0 := by omega
        rw [List.filter_cons_of_pos hmb, h0, List.take_zero]
        simp [h0]
    · have hmb : ¬ caloriesMatch mn mx x = true := by
        simp only [caloriesMatch, decide_eq_true_eq]
        tauto
      rw [if_neg (by tauto), ih, List.filter_cons_of_neg hmb]

/-- C6 helper: closed form of the whole filter for a positive limit. -/
lemma filter_food_vector_eq (src : List FoodItem) (mn mx : ℚ) (ts : Int)
    (hts : 0 < ts) :
    filter_food_vector src mn mx ts
      = some ((src.filter (caloriesMatch mn mx)).take ts.toNat) := by
  rw [filter_food_vector, if_neg (by omega)]
  rw [filter_foldl_eq mn mx ts src []]
  simp

/-- C6: for bounds `min ≤ max` and a positive limit, the filter returns
exactly the first `limit` items (hence `min(limit, matches)` of them)
whose calories are strictly positive and within the inclusive range, in
source order; and for any smaller positive limit `k`, the `k`-limited
filter is exactly the first `k` entries of the larger result. -/
theorem filter_food_vector_first_matches (src : List FoodItem) (mn mx : ℚ)
    (ts : Int) (hmm : mn ≤ mx) (hts : 0 < ts) :
    filter_food_vector src mn mx ts
      = some ((src.filter (caloriesMatch mn mx)).take ts.toNat)
    ∧ ∀ k : Int, 0 < k → k ≤ ts →
        filter_food_vector src mn mx k
          = some (((src.filter (caloriesMatch mn mx)).take ts.toNat).take k.toNat) := by
  refine ⟨filter_food_vector_eq src mn mx ts hts, fun k hk hkts => ?_⟩
  rw [filter_food_vector_eq src mn mx k hk, List.take_take,
    min_eq_left (by omega : k.toNat ≤ ts.toNat)]

/-- Witness for `filter_food_vector_first_matches` at a concrete input. -/
theorem filter_food_vector_first_matches_witness :
    filter_food_vector [⟨"a", 1, 3⟩, ⟨"b", 1, 9⟩, ⟨"c", 1, 4⟩] 2 5 2
      = some (([(⟨"a", 1, 3⟩ : FoodItem), ⟨"b", 1, 9⟩, ⟨"c", 1, 4⟩].filter
          (caloriesMatch 2 5)).take (2 : Int).toNat)
    ∧ filter_food_vector [⟨"a", 1, 3⟩, ⟨"b", 1, 9⟩, ⟨"c", 1, 4⟩] 2 5 1
        = some ((([(⟨"a", 1, 3⟩ : FoodItem), ⟨"b", 1, 9⟩, ⟨"c", 1, 4⟩].filter
            (caloriesMatch 2 5)).take (2 : Int).toNat).take (1 : Int).toNat) := by
  have h := filter_food_vector_first_matches
    [⟨"a", 1, 3⟩, ⟨"b", 1, 9⟩, ⟨"c", 1, 4⟩] 2 5 2 (by norm_num) (by norm_num)
  exact ⟨h.1, h.2 1 (by norm_num) (by norm_num)⟩

/-- C7: a non-positive limit is a usage error yielding no collection;
any positive limit yields a (possibly empty) collection. -/
theorem filter_food_vector_limit_errors (src : List FoodItem) (mn mx : ℚ)
    (ts : Int) :
    (ts ≤ 0 → filter_food_vector src mn mx ts = none)
    ∧ (0 < ts → ∃ result, filter_food_vector src mn mx ts = some result) := by
  constructor
  · intro h
    rw [filter_food_vector, if_pos h]
  · intro h
    exact ⟨_, filter_food_vector_eq src mn mx ts h⟩

/-- Witness for `filter_food_vector_limit_errors` at a concrete input. -/
theorem filter_food_vector_limit_errors_witness :
    filter_food_vector [⟨"a", 1, 3⟩] 0 5 (-2) = none
    ∧ ∃ result, filter_food_vector [⟨"a", 1, 3⟩] 0 5 2 = some result :=
  ⟨(filter_food_vector_limit_errors [⟨"a", 1, 3⟩] 0 5 (-2)).1 (by norm_num),
    (filter_food_vector_limit_errors [⟨"a", 1, 3⟩] 0 5 2).2 (by norm_num)⟩

/-! ### Bit-mask candidates -/

lemma maskCandidate_eq_candAux (foods : List FoodItem) (m : ℕ) :
    maskCandidate foods m = candAux m foods := by
  induction foods generalizing m with
  | nil => simp [maskCandidate, candAux]
  | cons x l ih =>
    rw [maskCandidate, candAux]
    simp only [List.length_cons, List.range_succ_eq_map, List.filter_cons,
      List.filter_map, List.map_cons, List.map_map]
    have hbit : ∀ j : ℕ, m.testBit (j + 1) = (m / 2).testBit j := fun j =>
      Nat.testBit_add_one m j
    have hfun : ((fun j => m.testBit j) ∘ Nat.succ) = fun j => (m / 2).testBit j := by
      funext j
      simp [Function.comp, hbit]
    by_cases h0 : m % 2 = 1
    · have hb : m.testBit 0 = true := by
        simp [Nat.testBit_zero, h0]
      rw [if_pos (by simp [hb])]
      simp only [List.map_cons, List.getD_cons_zero]
      rw [← ih (m / 2), if_pos h0, maskCandidate]
      congr 1
      simp only [List.filter_map, List.map_map, hfun]
      congr 1
    · have hb : m.testBit 0 = false := by
        simp [Nat.testBit_zero, h0]
      rw [if_neg (by simp [hb])]
      rw [← ih (m / 2), if_neg h0, maskCandidate]
      simp only [List.filter_map, List.map_map, hfun]
      congr 1

lemma candAux_sublist (l : List FoodItem) : ∀ m, List.Sublist (candAux m l) l := by
  induction l with
  | nil => intro m; simp [candAux]
  | cons x l ih =>
    intro m
    rw [candAux]
    by_cases h : m % 2 = 1
    · rw [if_pos h]
      exact List.Sublist.cons₂ x (ih (m / 2))
    · rw [if_neg h]
      exact List.Sublist.cons x (ih (m / 2))

lemma candAux_zero (l : List FoodItem) : candAux 0 l = [] := by
  induction l with
  | nil => rfl
  | cons x l ih => rw [candAux]; norm_num [ih]

lemma candAux_ne_nil (l : List FoodItem) :
    ∀ m, 0 < m → m < 2 ^ l.length → candAux m l ≠ [] := by
  induction l with
  | nil =>
    intro m hm hlt
    simp at hlt
    omega
  | cons x l ih =>
    intro m hm hlt
    rw [candAux]
    by_cases h : m % 2 = 1
    · rw [if_pos h]
      exact List.cons_ne_nil x _
    · rw [if_neg h]
      refine ih (m / 2) (by omega) ?_
      simp only [List.length_cons, pow_succ] at hlt
      omega

lemma exists_mask_of_sublist {S l : List FoodItem} (h : List.Sublist S l) :
    ∃ m, m < 2 ^ l.length ∧ candAux m l = S := by
  induction h with
  | slnil => exact ⟨0, by norm_num, rfl⟩
  | cons x h ih =>
    obtain ⟨m, hm, hc⟩ := ih
    refine ⟨2 * m, ?_, ?_⟩
    · simp only [List.length_cons, pow_succ]
      omega
    · rw [candAux, if_neg (by omega)]
      rw [Nat.mul_div_cancel_left m (by norm_num)]
      exact hc
  | cons₂ x h ih =>
    obtain ⟨m, hm, hc⟩ := ih
    refine ⟨2 * m + 1, ?_, ?_⟩
    · simp only [List.length_cons, pow_succ]
      omega
    · rw [candAux, if_pos (by omega)]
      rw [Nat.mul_add_div (by norm_num), Nat.div_eq_of_lt (by norm_num)]
      simpa using congrArg (x :: ·) hc

/-! ### Exhaustive search: degenerate-input behaviour -/

lemma foldl_keeps_nil (f : List FoodItem → ℕ → List FoodItem) :
    ∀ ms : List ℕ, (∀ m ∈ ms, f [] m = []) → ms.foldl f [] = [] := by
  intro ms
  induction ms with
  | nil => intro _; rfl
  | cons m ms ih =>
    intro h
    rw [List.foldl_cons, h m (List.mem_cons_self m ms)]
    exact ih fun m' hm' => h m' (List.mem_cons_of_mem m hm')

lemma exhaustive_nil_input (cap : ℚ) : exhaustive_max_calories [] cap = [] := by
  have h : maskCandidate [] 0 = [] := by
    rw [maskCandidate_eq_candAux]
    rfl
  have hr : List.range (2 ^ ([] : List FoodItem).length) = [0] := rfl
  rw [exhaustive_max_calories, hr, List.foldl_cons, List.foldl_nil, exhaustiveStep]
  simp [h]

lemma exhaustive_infeasible_all (foods : List FoodItem) (cap : ℚ)
    (h : ∀ m < 2 ^ foods.length, ¬ totalWeight (maskCandidate foods m) ≤ cap) :
    exhaustive_max_calories foods cap = [] := by
  apply foldl_keeps_nil
  intro m hm
  rw [List.mem_range] at hm
  rw [exhaustiveStep]
  rw [if_neg]
  intro hcond
  rw [sum_food_vector_eq] at hcond
  exact h m hm hcond.1

lemma exhaustive_zero_cap (foods : List FoodItem)
    (hw : ∀ x ∈ foods, 0 < x.weight) : exhaustive_max_calories foods 0 = [] := by
  apply foldl_keeps_nil
  intro m hm
  rw [List.mem_range] at hm
  rw [exhaustiveStep]
  by_cases h0 : m = 0
  · subst h0
    have hc : maskCandidate foods 0 = [] := by
      rw [maskCandidate_eq_candAux, candAux_zero]
    simp [hc]
  · have hne : maskCandidate foods m ≠ [] := by
      rw [maskCandidate_eq_candAux]
      exact candAux_ne_nil foods m (by omega) hm
    have hpos : 0 < totalWeight (maskCandidate foods m) := by
      apply totalWeight_pos hne
      intro x hx
      rw [maskCandidate_eq_candAux] at hx
      exact hw x ((candAux_sublist foods m).subset hx)
    rw [if_neg]
    intro hcond
    rw [sum_food_vector_eq] at hcond
    exact absurd hcond.1 (by linarith)

lemma knapK_w_zero (foods : List FoodItem) (i : ℕ) : knapK foods i 0 = 0 := by
  cases i <;> rfl

lemma reconstructIdx_w_zero (foods : List FoodItem) :
    ∀ i, reconstructIdx foods i 0 = [] := by
  intro i
  induction i with
  | zero => rfl
  | succ i ih =>
    rw [reconstructIdx, if_pos (by rw [knapK_w_zero, knapK_w_zero])]
    exact ih

/-- C9: both solvers map the empty catalog to the empty solution for
any capacity ≥ 0, and zero capacity on any catalog of valid items
(positive weights) also yields the empty solution, not an error. -/
theorem solvers_empty_and_zero_capacity (foods : List FoodItem) (cap : ℚ) (W : ℕ)
    (hcap : 0 ≤ cap) (hw : ∀ x ∈ foods, 0 < x.weight) :
    exhaustive_max_calories [] cap = []
    ∧ dynamic_max_calories [] W = []
    ∧ exhaustive_max_calories foods 0 = []
    ∧ dynamic_max_calories foods 0 = [] := by
  refine ⟨exhaustive_nil_input cap, rfl, exhaustive_zero_cap foods hw, ?_⟩
  rw [dynamic_max_calories, reconstructIdx_w_zero]
  rfl

/-- Witness for `solvers_empty_and_zero_capacity` at a concrete input. -/
theorem solvers_empty_and_zero_capacity_witness :
    exhaustive_max_calories [] 5 = []
    ∧ dynamic_max_calories [] 5 = []
    ∧ exhaustive_max_calories [⟨"a", 2, 7⟩] 0 = []
    ∧ dynamic_max_calories [⟨"a", 2, 7⟩] 0 = [] :=
  solvers_empty_and_zero_capacity [⟨"a", 2, 7⟩] 5 5 (by norm_num)
    (by intro x hx; rw [List.mem_singleton] at hx; subst hx; norm_num)

/-- C10: with a strictly negative capacity, even the empty subset is
infeasible, yet the exhaustive solver still returns the (infeasible)
empty collection rather than failing: the weight-feasibility guarantee
does not extend to negative capacities. -/
theorem exhaustive_negative_capacity (foods : List FoodItem) (cap : ℚ)
    (hn : foods.length < 64) (hw : ∀ x ∈ foods, 0 < x.weight) (hcap : cap < 0) :
    exhaustive_max_calories foods cap = []
    ∧ ¬ totalWeight (exhaustive_max_calories foods cap) ≤ cap := by
  have h : exhaustive_max_calories foods cap = [] := by
    apply exhaustive_infeasible_all
    intro m hm hle
    have h0 : 0 ≤ totalWeight (maskCandidate foods m) := by
      apply totalWeight_nonneg
      intro x hx
      rw [maskCandidate_eq_candAux] at hx
      exact (hw x ((candAux_sublist foods m).subset hx)).le
    linarith
  refine ⟨h, ?_⟩
  rw [h, totalWeight_nil]
  linarith

/-- Witness for `exhaustive_negative_capacity` at a concrete input. -/
theorem exhaustive_negative_capacity_witness :
    exhaustive_max_calories [⟨"a", 2, 7⟩] (-3) = []
    ∧ ¬ totalWeight (exhaustive_max_calories [⟨"a", 2, 7⟩] (-3)) ≤ (-3) :=
  exhaustive_negative_capacity [⟨"a", 2, 7⟩] (-3) (by norm_num)
    (by intro x hx; rw [List.mem_singleton] at hx; subst hx; norm_num) (by norm_num)

/-! ### Tie-breaking in the exhaustive search -/

/-- C4 (amended): the initial best is the empty subset with weight 0
and calories 0; a nonempty best is replaced only by a feasible
candidate with strictly greater calories (later equal-calorie
candidates never replace it), and an infeasible candidate never
replaces the best; but while the best is still empty, any feasible
candidate replaces it regardless of calories, so a feasible
zero-calorie item is returned in place of the equally-caloric empty
subset. -/
theorem exhaustive_tie_breaking (foods : List FoodItem) (cap : ℚ) :
    sum_food_vector [] = (0, 0)
    ∧ (∀ (best : List FoodItem) (i : ℕ), best ≠ [] →
        totalCalories (maskCandidate foods i) ≤ totalCalories best →
        exhaustiveStep foods cap best i = best)
    ∧ (∀ (best : List FoodItem) (i : ℕ),
        ¬ totalWeight (maskCandidate foods i) ≤ cap →
        exhaustiveStep foods cap best i = best)
    ∧ (∀ x : FoodItem, 0 ≤ cap → x.weight ≤ cap →
        exhaustive_max_calories [x] cap = [x]) := by
  refine ⟨rfl, ?_, ?_, ?_⟩
  · intro best i hne hle
    rw [exhaustiveStep]
    rw [if_neg]
    rw [sum_food_vector_eq, sum_food_vector_eq]
    rintro ⟨-, hor⟩
    rcases hor with h | h
    · exact hne h
    · exact absurd h (not_lt.mpr hle)
  · intro best i hinf
    rw [exhaustiveStep]
    rw [if_neg]
    rw [sum_food_vector_eq]
    rintro ⟨hfeas, -⟩
    exact hinf hfeas
  · intro x hcap hx
    have hr : List.range (2 ^ ([x] : List FoodItem).length) = [0, 1] := by
      norm_num [List.range_succ]
    have hc0 : maskCandidate [x] 0 = [] := by
      rw [maskCandidate_eq_candAux, candAux_zero]
    have hc1 : maskCandidate [x] 1 = [x] := by
      rw [maskCandidate_eq_candAux]
      rfl
    rw [exhaustive_max_calories, hr, List.foldl_cons, List.foldl_cons,
      List.foldl_nil]
    have hstep0 : exhaustiveStep [x] cap [] 0 = [] := by
      rw [exhaustiveStep]
      simp [hc0]
    rw [hstep0, exhaustiveStep, hc1]
    rw [if_pos]
    refine ⟨?_, Or.inl rfl⟩
    rw [sum_food_vector_eq]
    simpa using hx

/-- Witness for `exhaustive_tie_breaking` at a concrete input. -/
theorem exhaustive_tie_breaking_witness :
    sum_food_vector [] = (0, 0)
    ∧ exhaustiveStep [⟨"h", 5, 2⟩] 1 [⟨"h", 5, 2⟩] 1 = [⟨"h", 5, 2⟩]
    ∧ exhaustiveStep [⟨"h", 5, 2⟩] 1 [] 1 = []
    ∧ exhaustive_max_calories [⟨"w", 1, 0⟩] 1 = [⟨"w", 1, 0⟩] := by
  have h := exhaustive_tie_breaking [⟨"h", 5, 2⟩] 1
  refine ⟨h.1, ?_, ?_, h.2.2.2 ⟨"w", 1, 0⟩ (by norm_num) (by norm_num)⟩
  · refine h.2.1 [⟨"h", 5, 2⟩] 1 (by simp) ?_
    norm_num [maskCandidate, totalCalories, List.range_succ]
  · refine h.2.2.1 [] 1 ?_
    norm_num [maskCandidate, totalWeight, List.range_succ]

/-- C4, as stated, is false: with the single feasible zero-calorie item
`z` the earlier-found best is the empty subset with calories 0, yet the
solver returns `[z]` (also calories 0) because a feasible candidate
always replaces an empty best, even without strictly greater calories. -/
theorem exhaustive_tie_breaking_cex :
    exhaustive_max_calories [⟨"z", 1, 0⟩] 1 = [⟨"z", 1, 0⟩]
    ∧ totalCalories [(⟨"z", 1, 0⟩ : FoodItem)] = totalCalories ([] : List FoodItem)
    ∧ (⟨"z", 1, 0⟩ : FoodItem).weight ≤ 1 := by
  refine ⟨?_, by norm_num [totalCalories], by norm_num⟩
  norm_num [exhaustive_max_calories, exhaustiveStep, maskCandidate,
    sum_food_vector, List.range_succ]

/-- C1, as stated, is false on an item with negative calories: at
capacity 1 the solver returns the item with calories −5 although the
empty subset is feasible with strictly greater calories 0. -/
theorem exhaustive_optimality_cex :
    totalWeight ([] : List FoodItem) ≤ 1
    ∧ List.Sublist ([] : List FoodItem) [⟨"a", 1, -5⟩]
    ∧ totalCalories (exhaustive_max_calories [⟨"a", 1, -5⟩] 1)
        < totalCalories ([] : List FoodItem) := by
  refine ⟨by norm_num, List.nil_sublist _, ?_⟩
  norm_num [exhaustive_max_calories, exhaustiveStep, maskCandidate,
    sum_food_vector, List.range_succ, totalCalories]

/-- C2, as stated, is false on an item with negative calories: the
exhaustive solver returns calories −5 while the dynamic-programming
solver returns the empty subset with calories 0. -/
theorem solvers_agreement_cex :
    totalCalories (exhaustive_max_calories [⟨"a", 1, -5⟩] 1)
      ≠ totalCalories (dynamic_max_calories [⟨"a", 1, -5⟩] 1) := by
  have he : totalCalories (exhaustive_max_calories [⟨"a", 1, -5⟩] 1) = -5 := by
    norm_num [exhaustive_max_calories, exhaustiveStep, maskCandidate,
      sum_food_vector, List.range_succ, totalCalories]
  have hd : totalCalories (dynamic_max_calories [⟨"a", 1, -5⟩] 1) = 0 := by
    norm_num [dynamic_max_calories, reconstructIdx, knapK, totalCalories]
  rw [he, hd]
  norm_num

/-- C8, as stated, is false on an item with negative calories: raising
the capacity from 0 to 1 drops the exhaustive solver's calorie total
from 0 to −5. -/
theorem monotonicity_cex :
    totalCalories (exhaustive_max_calories [⟨"a", 1, -5⟩] 1)
      < totalCalories (exhaustive_max_calories [⟨"a", 1, -5⟩] 0) := by
  have he : totalCalories (exhaustive_max_calories [⟨"a", 1, -5⟩] 1) = -5 := by
    norm_num [exhaustive_max_calories, exhaustiveStep, maskCandidate,
      sum_food_vector, List.range_succ, totalCalories]
  have h0 : totalCalories (exhaustive_max_calories [⟨"a", 1, -5⟩] 0) = 0 := by
    norm_num [exhaustive_max_calories, exhaustiveStep, maskCandidate,
      sum_food_vector, List.range_succ, totalCalories]
  rw [he, h0]
  norm_num

/-! ### Exhaustive search: feasibility and optimality -/

lemma maskCandidate_sublist (foods : List FoodItem) (m : ℕ) :
    List.Sublist (maskCandidate foods m) foods := by
  rw [maskCandidate_eq_candAux]
  exact candAux_sublist foods m

lemma exhaustiveStep_cases (foods : List FoodItem) (cap : ℚ)
    (b : List FoodItem) (m : ℕ) :
    (exhaustiveStep foods cap b m = maskCandidate foods m
      ∧ totalWeight (maskCandidate foods m) ≤ cap
      ∧ (b = [] ∨ totalCalories b < totalCalories (maskCandidate foods m)))
    ∨ (exhaustiveStep foods cap b m = b
      ∧ (¬ totalWeight (maskCandidate foods m) ≤ cap
        ∨ (b ≠ [] ∧ totalCalories (maskCandidate foods m) ≤ totalCalories b))) := by
  rw [exhaustiveStep]
  simp only [sum_food_vector_eq]
  by_cases h : totalWeight (maskCandidate foods m) ≤ cap
    ∧ (b = [] ∨ totalCalories b < totalCalories (maskCandidate foods m))
  · left
    exact ⟨if_pos h, h.1, h.2⟩
  · right
    refine ⟨if_neg h, ?_⟩
    push_neg at h
    by_cases hf : totalWeight (maskCandidate foods m) ≤ cap
    · obtain ⟨hne, hle⟩ := h hf
      exact Or.inr ⟨hne, hle⟩
    · exact Or.inl hf

lemma exhaustive_fold_inv (foods : List FoodItem) (cap : ℚ)
    (hcal : ∀ x ∈ foods, 0 ≤ x.calories) :
    ∀ (ms : List ℕ) (b : List FoodItem),
      totalWeight b ≤ cap → List.Sublist b foods →
      totalWeight (ms.foldl (exhaustiveStep foods cap) b) ≤ cap
      ∧ List.Sublist (ms.foldl (exhaustiveStep foods cap) b) foods
      ∧ totalCalories b ≤ totalCalories (ms.foldl (exhaustiveStep foods cap) b)
      ∧ ∀ m ∈ ms, totalWeight (maskCandidate foods m) ≤ cap →
          totalCalories (maskCandidate foods m)
            ≤ totalCalories (ms.foldl (exhaustiveStep foods cap) b) := by
  intro ms
  induction ms with
  | nil =>
    intro b hbw hbs
    exact ⟨hbw, hbs, le_refl _, fun m hm => absurd hm (List.not_mem_nil m)⟩
  | cons m ms ih =>
    intro b hbw hbs
    rw [List.foldl_cons]
    have hcand : ∀ x ∈ maskCandidate foods m, 0 ≤ x.calories := fun x hx =>
      hcal x ((maskCandidate_sublist foods m).subset hx)
    have hstep :
        totalWeight (exhaustiveStep foods cap b m) ≤ cap
        ∧ List.Sublist (exhaustiveStep foods cap b m) foods
        ∧ totalCalories b ≤ totalCalories (exhaustiveStep foods cap b m)
        ∧ (totalWeight (maskCandidate foods m) ≤ cap →
            totalCalories (maskCandidate foods m)
              ≤ totalCalories (exhaustiveStep foods cap b m)) := by
      rcases exhaustiveStep_cases foods cap b m with
        ⟨heq, hfw, hbetter⟩ | ⟨heq, hkeep⟩
      · rw [heq]
        refine ⟨hfw, maskCandidate_sublist foods m, ?_, fun _ => le_refl _⟩
        rcases hbetter with hb | hb
        · rw [hb, totalCalories_nil]
          exact totalCalories_nonneg hcand
        · exact hb.le
      · rw [heq]
        refine ⟨hbw, hbs, le_refl _, fun hfw => ?_⟩
        rcases hkeep with hk | hk
        · exact absurd hfw hk
        · exact hk.2
    obtain ⟨hw', hs', hc', hf'⟩ := hstep
    obtain ⟨ihw, ihs, ihc, ihall⟩ := ih (exhaustiveStep foods cap b m) hw' hs'
    refine ⟨ihw, ihs, le_trans hc' ihc, ?_⟩
    intro m' hm' hfw'
    rcases List.mem_cons.mp hm' with hm0 | hms
    · subst hm0
      exact le_trans (hf' hfw') ihc
    · exact ihall m' hms hfw'

/-- C1 (amended): for a catalog of at most 30 items (the range where
the source's `int`-typed mask bound `pow(2, n)` is exact; beyond it
the bound computation overflows, see the C5 divergence) all of whose
calories are non-negative, and a capacity ≥ 0, the subset returned by
the exhaustive solver weighs no more than the capacity, and no other
subset of the input that fits within the capacity has strictly greater
total calories. -/
theorem exhaustive_feasible_and_optimal (foods : List FoodItem) (cap : ℚ)
    (hn : foods.length ≤ 30) (hcap : 0 ≤ cap)
    (hcal : ∀ x ∈ foods, 0 ≤ x.calories) :
    totalWeight (exhaustive_max_calories foods cap) ≤ cap
    ∧ ∀ S : List FoodItem, List.Sublist S foods → totalWeight S ≤ cap →
        totalCalories S ≤ totalCalories (exhaustive_max_calories foods cap) := by
  have hinv := exhaustive_fold_inv foods cap hcal
    (List.range (2 ^ foods.length)) []
    (by rw [totalWeight_nil]; exact hcap) (List.nil_sublist foods)
  rw [exhaustive_max_calories]
  refine ⟨hinv.1, ?_⟩
  intro S hsub hsw
  obtain ⟨m, hmlt, hmeq⟩ := exists_mask_of_sublist hsub
  have hcand : maskCandidate foods m = S := by
    rw [maskCandidate_eq_candAux, hmeq]
  have := hinv.2.2.2 m (List.mem_range.mpr hmlt) (by rw [hcand]; exact hsw)
  rw [hcand] at this
  exact this

/-- Witness for `exhaustive_feasible_and_optimal` at a concrete input. -/
theorem exhaustive_feasible_and_optimal_witness :
    totalWeight (exhaustive_max_calories [⟨"a", 10, 20⟩, ⟨"b", 4, 5⟩] 9) ≤ 9
    ∧ totalCalories [(⟨"b", 4, 5⟩ : FoodItem)]
        ≤ totalCalories (exhaustive_max_calories [⟨"a", 10, 20⟩, ⟨"b", 4, 5⟩] 9) := by
  have h := exhaustive_feasible_and_optimal [⟨"a", 10, 20⟩, ⟨"b", 4, 5⟩] 9
    (by norm_num) (by norm_num)
    (by
      intro x hx
      rcases List.mem_cons.mp hx with h1 | h1
      · subst h1; norm_num
      · rw [List.mem_singleton] at h1; subst h1; norm_num)
  refine ⟨h.1, h.2 [⟨"b", 4, 5⟩] ?_ ?_⟩
  · exact List.Sublist.cons _ (List.Sublist.refl _)
  · norm_num [totalWeight]

/-! ### The subset optimum `maxSubCal` -/

lemma maxSubCal_cons_ge (x : FoodItem) (l : List FoodItem) (w : ℚ) :
    maxSubCal l w ≤ maxSubCal (x :: l) w := by
  rw [maxSubCal]
  by_cases h : x.weight ≤ w
  · rw [if_pos h]
    exact le_max_left _ _
  · rw [if_neg h]

lemma maxSubCal_ge {S l : List FoodItem} (h : List.Sublist S l) :
    ∀ w : ℚ, (∀ x ∈ l, 0 ≤ x.weight) → totalWeight S ≤ w →
      totalCalories S ≤ maxSubCal l w := by
  induction h with
  | slnil =>
    intro w _ _
    rw [totalCalories_nil, maxSubCal]
  | cons a h ih =>
    intro w hw hsw
    refine le_trans (ih w (fun x hx => hw x (List.mem_cons_of_mem a hx)) hsw) ?_
    exact maxSubCal_cons_ge a _ w
  | cons₂ a h ih =>
    intro w hw hsw
    have hS'w := totalWeight_nonneg fun x hx =>
      hw x (List.mem_cons_of_mem a (h.subset hx))
    rw [totalWeight_cons] at hsw
    have haw : a.weight ≤ w := by linarith
    rw [maxSubCal, if_pos haw, totalCalories_cons]
    have hrec := ih (w - a.weight)
      (fun x hx => hw x (List.mem_cons_of_mem a hx)) (by linarith)
    refine le_trans ?_ (le_max_right _ _)
    linarith

lemma maxSubCal_attained (l : List FoodItem) :
    ∀ w : ℚ, 0 ≤ w → ∃ S : List FoodItem, List.Sublist S l
      ∧ totalWeight S ≤ w ∧ totalCalories S = maxSubCal l w := by
  induction l with
  | nil =>
    intro w hw0
    exact ⟨[], List.Sublist.refl [], by rw [totalWeight_nil]; exact hw0, rfl⟩
  | cons x l ih =>
    intro w hw0
    by_cases hxw : x.weight ≤ w
    · obtain ⟨S1, hs1, hw1, hc1⟩ := ih w hw0
      obtain ⟨S2, hs2, hw2, hc2⟩ := ih (w - x.weight) (by linarith)
      rw [maxSubCal, if_pos hxw]
      rcases le_total (maxSubCal l w) (x.calories + maxSubCal l (w - x.weight)) with
        hle | hle
      · refine ⟨x :: S2, List.Sublist.cons₂ x hs2, ?_, ?_⟩
        · rw [totalWeight_cons]
          linarith
        · rw [totalCalories_cons, hc2, max_eq_right hle]
      · refine ⟨S1, List.Sublist.cons x hs1, hw1, ?_⟩
        rw [hc1, max_eq_left hle]
    · obtain ⟨S1, hs1, hw1, hc1⟩ := ih w hw0
      rw [maxSubCal, if_neg hxw]
      exact ⟨S1, List.Sublist.cons x hs1, hw1, hc1⟩

lemma maxSubCal_mono (l : List FoodItem) :
    ∀ w w' : ℚ, w ≤ w' → maxSubCal l w ≤ maxSubCal l w' := by
  induction l with
  | nil => intro w w' _; rw [maxSubCal, maxSubCal]
  | cons x l ih =>
    intro w w' hww
    by_cases hxw : x.weight ≤ w
    · rw [maxSubCal, if_pos hxw, maxSubCal, if_pos (le_trans hxw hww)]
      exact max_le_max (ih w w' hww)
        (add_le_add_left (ih _ _ (sub_le_sub_right hww x.weight)) x.calories)
    · rw [maxSubCal, if_neg hxw]
      refine le_trans (ih w w' hww) (maxSubCal_cons_ge x l w')

lemma exhaustive_eq_maxSubCal (foods : List FoodItem) (cap : ℚ)
    (hcap : 0 ≤ cap) (hw : ∀ x ∈ foods, 0 ≤ x.weight)
    (hcal : ∀ x ∈ foods, 0 ≤ x.calories) :
    totalCalories (exhaustive_max_calories foods cap) = maxSubCal foods cap := by
  have hinv := exhaustive_fold_inv foods cap hcal
    (List.range (2 ^ foods.length)) []
    (by rw [totalWeight_nil]; exact hcap) (List.nil_sublist foods)
  rw [exhaustive_max_calories]
  apply le_antisymm
  · exact maxSubCal_ge hinv.2.1 cap hw hinv.1
  · obtain ⟨S, hsub, hsw, hsc⟩ := maxSubCal_attained foods cap hcap
    obtain ⟨m, hmlt, hmeq⟩ := exists_mask_of_sublist hsub
    have hcand : maskCandidate foods m = S := by
      rw [maskCandidate_eq_candAux, hmeq]
    have := hinv.2.2.2 m (List.mem_range.mpr hmlt) (by rw [hcand]; exact hsw)
    rw [hcand, hsc] at this
    exact this

/-! ### Dynamic programming: table correctness -/

lemma maxSubCal_concat (x : FoodItem) (l : List FoodItem) :
    ∀ w : ℚ, (∀ y ∈ l, 0 ≤ y.weight) → 0 ≤ x.weight →
      maxSubCal (l ++ [x]) w
        = if x.weight ≤ w then
            max (maxSubCal l w) (x.calories + maxSubCal l (w - x.weight))
          else maxSubCal l w := by
  induction l with
  | nil =>
    intro w _ _
    simp [maxSubCal]
  | cons a l ih =>
    intro w hw hx
    have ha0 : 0 ≤ a.weight := hw a (List.mem_cons_self a l)
    have hwl : ∀ y ∈ l, 0 ≤ y.weight := fun y hy => hw y (List.mem_cons_of_mem a hy)
    rw [List.cons_append, maxSubCal, ih w hwl hx, ih (w - a.weight) hwl hx]
    by_cases hxw : x.weight ≤ w
    · by_cases haw : a.weight ≤ w
      · by_cases hax : x.weight ≤ w - a.weight
        · have hxa : a.weight ≤ w - x.weight := by linarith
          simp only [if_pos hxw, if_pos haw, if_pos hax, maxSubCal, if_pos hxa]
          have hsub : w - a.weight - x.weight = w - x.weight - a.weight := by ring
          rw [hsub, ← max_add_add_left, ← max_add_add_left]
          apply le_antisymm <;>
            (simp only [max_le_iff]
             refine ⟨⟨?_, ?_⟩, ?_, ?_⟩ <;>
               simp only [le_max_iff] <;>
               first
                 | exact Or.inl (Or.inl le_rfl)
                 | exact Or.inl (Or.inr le_rfl)
                 | exact Or.inr (Or.inl le_rfl)
                 | exact Or.inr (Or.inr le_rfl)
                 | (left; left; linarith)
                 | (left; right; linarith)
                 | (right; left; linarith)
                 | (right; right; linarith))
        · have hxa : ¬ a.weight ≤ w - x.weight := fun hcon => hax (by linarith)
          simp only [if_pos hxw, if_pos haw, if_neg hax, maxSubCal, if_neg hxa]
          apply le_antisymm <;>
            (simp only [max_le_iff]
             refine ⟨⟨?_, ?_⟩, ?_⟩ <;>
               simp only [le_max_iff] <;>
               first
                 | exact Or.inl (Or.inl le_rfl)
                 | exact Or.inl (Or.inr le_rfl)
                 | exact Or.inr le_rfl
                 | exact Or.inr (Or.inl le_rfl)
                 | exact Or.inr (Or.inr le_rfl))
      · have hxa : ¬ a.weight ≤ w - x.weight := fun hcon => haw (by linarith)
        simp only [if_pos hxw, if_neg haw, maxSubCal, if_neg hxa]
    · have hax : ¬ x.weight ≤ w - a.weight := fun hcon => hxw (by linarith)
      simp only [if_neg hxw, if_neg hax]
      rw [maxSubCal]

lemma maxSubCal_zero_cap (l : List FoodItem) (h : ∀ y ∈ l, 0 < y.weight) :
    maxSubCal l 0 = 0 := by
  induction l with
  | nil => rfl
  | cons x l ih =>
    rw [maxSubCal, if_neg (not_le.mpr (h x (List.mem_cons_self x l)))]
    exact ih fun y hy => h y (List.mem_cons_of_mem x hy)

lemma knapK_succ (foods : List FoodItem) (i v : ℕ) :
    knapK foods (i + 1) (v + 1)
      = if (foods.getD i defaultFood).weight ≤ (v : ℚ) + 1 then
          max ((foods.getD i defaultFood).calories
              + knapK foods i (Int.toNat ⌊((v : ℚ) + 1) - (foods.getD i defaultFood).weight⌋))
            (knapK foods i (v + 1))
        else knapK foods i (v + 1) := by
  rw [knapK]

lemma take_succ_concat (foods : List FoodItem) (i : ℕ) (hi : i < foods.length) :
    foods.take (i + 1) = foods.take i ++ [foods.getD i defaultFood] := by
  rw [List.take_succ]
  congr
  rw [List.getElem?_eq_getElem hi, List.getD_eq_getElem foods defaultFood hi]
  rfl

lemma knapK_eq_maxSubCal (foods : List FoodItem)
    (hw : ∀ x ∈ foods, ∃ k : ℕ, 0 < k ∧ x.weight = (k : ℚ)) :
    ∀ i, i ≤ foods.length → ∀ w : ℕ,
      knapK foods i w = maxSubCal (foods.take i) (w : ℚ) := by
  intro i
  induction i with
  | zero =>
    intro _ w
    rw [List.take_zero]
    rfl
  | succ i ih =>
    intro hle w
    have hi : i < foods.length := by omega
    have hxmem : foods.getD i defaultFood ∈ foods := by
      rw [List.getD_eq_get foods defaultFood hi]
      exact List.get_mem foods i hi
    obtain ⟨k, hk, hxw⟩ := hw (foods.getD i defaultFood) hxmem
    have htake := take_succ_concat foods i hi
    have hwt : ∀ y ∈ foods.take i, 0 ≤ y.weight := by
      intro y hy
      obtain ⟨k', _, hy'⟩ := hw y ((List.take_sublist i foods).subset hy)
      rw [hy']
      exact Nat.cast_nonneg k'
    have hx0 : (0 : ℚ) ≤ (foods.getD i defaultFood).weight := by
      rw [hxw]
      exact Nat.cast_nonneg k
    cases w with
    | zero =>
      rw [knapK_w_zero, Nat.cast_zero, maxSubCal_zero_cap]
      intro y hy
      obtain ⟨k', hk', hy'⟩ := hw y ((List.take_sublist (i+1) foods).subset hy)
      rw [hy']
      exact_mod_cast hk'
    | succ v =>
      have hcast : ((v + 1 : ℕ) : ℚ) = (v : ℚ) + 1 := by push_cast; ring
      rw [knapK_succ, htake, hcast,
        maxSubCal_concat (foods.getD i defaultFood) (foods.take i) ((v : ℚ) + 1) hwt hx0]
      by_cases hfit : (foods.getD i defaultFood).weight ≤ (v : ℚ) + 1
      · have hkv : k ≤ v + 1 := by
          rw [hxw] at hfit
          exact_mod_cast le_trans hfit (le_of_eq hcast.symm)
        have hsubcast : ((v : ℚ) + 1) - (foods.getD i defaultFood).weight
            = ((v + 1 - k : ℕ) : ℚ) := by
          rw [hxw, ← hcast, ← Nat.cast_sub hkv]
        have hfloor : Int.toNat ⌊((v : ℚ) + 1) - (foods.getD i defaultFood).weight⌋
            = v + 1 - k := by
          rw [hsubcast, Int.floor_natCast]
          exact Int.toNat_natCast _
        rw [if_pos hfit, if_pos hfit, hfloor, ih (le_of_lt hi) (v + 1 - k),
          ih (le_of_lt hi) (v + 1), hcast, hsubcast, max_comm]
      · rw [if_neg hfit, if_neg hfit, ih (le_of_lt hi) (v + 1), hcast]

/-! ### Dynamic programming: reconstruction -/

lemma knapK_skip (foods : List FoodItem) (i w : ℕ)
    (h : ¬ (foods.getD i defaultFood).weight ≤ ((w : ℕ) : ℚ)) :
    knapK foods (i + 1) w = knapK foods i w := by
  cases w with
  | zero => rw [knapK_w_zero, knapK_w_zero]
  | succ v =>
    rw [knapK_succ, if_neg]
    intro hcon
    apply h
    push_cast
    exact hcon

lemma recon_mem_lt (foods : List FoodItem) :
    ∀ i w j, j ∈ reconstructIdx foods i w → j < i := by
  intro i
  induction i with
  | zero =>
    intro w j hj
    rw [reconstructIdx] at hj
    exact absurd hj (List.not_mem_nil j)
  | succ i ih =>
    intro w j hj
    rw [reconstructIdx] at hj
    by_cases heq : knapK foods (i + 1) w = knapK foods i w
    · rw [if_pos heq] at hj
      exact lt_trans (ih w j hj) (lt_add_one i)
    · rw [if_neg heq] at hj
      rcases List.mem_cons.mp hj with h | h
      · omega
      · exact lt_trans (ih _ j h) (lt_add_one i)

lemma recon_pairwise (foods : List FoodItem) :
    ∀ i w, List.Pairwise (fun a b => b < a) (reconstructIdx foods i w) := by
  intro i
  induction i with
  | zero =>
    intro w
    rw [reconstructIdx]
    exact List.Pairwise.nil
  | succ i ih =>
    intro w
    rw [reconstructIdx]
    by_cases heq : knapK foods (i + 1) w = knapK foods i w
    · rw [if_pos heq]
      exact ih w
    · rw [if_neg heq]
      exact List.Pairwise.cons (fun j hj => recon_mem_lt foods i _ j hj) (ih _)

lemma recon_spec (foods : List FoodItem) :
    ∀ i w,
      totalCalories ((reconstructIdx foods i w).map (fun j => foods.getD j defaultFood))
        = knapK foods i w
      ∧ totalWeight ((reconstructIdx foods i w).map (fun j => foods.getD j defaultFood))
        ≤ (w : ℚ) := by
  intro i
  induction i with
  | zero =>
    intro w
    rw [reconstructIdx]
    refine ⟨rfl, ?_⟩
    rw [List.map_nil, totalWeight_nil]
    exact Nat.cast_nonneg w
  | succ i ih =>
    intro w
    by_cases heq : knapK foods (i + 1) w = knapK foods i w
    · rw [reconstructIdx, if_pos heq]
      exact ⟨by rw [(ih w).1, heq], (ih w).2⟩
    · rw [reconstructIdx, if_neg heq]
      have hw0 : w ≠ 0 := by
        rintro rfl
        exact heq (by rw [knapK_w_zero, knapK_w_zero])
      obtain ⟨v, rfl⟩ := Nat.exists_eq_succ_of_ne_zero hw0
      have hcast : ((v + 1 : ℕ) : ℚ) = (v : ℚ) + 1 := by push_cast; ring
      have hfit : (foods.getD i defaultFood).weight ≤ (v : ℚ) + 1 := by
        by_contra hnot
        refine heq (knapK_skip foods i (v + 1) ?_)
        rw [hcast]
        exact hnot
      have hval : knapK foods (i + 1) (v + 1)
          = (foods.getD i defaultFood).calories
            + knapK foods i
                (Int.toNat ⌊((v : ℚ) + 1) - (foods.getD i defaultFood).weight⌋) := by
        rcases max_choice ((foods.getD i defaultFood).calories
            + knapK foods i
                (Int.toNat ⌊((v : ℚ) + 1) - (foods.getD i defaultFood).weight⌋))
            (knapK foods i (v + 1)) with hmc | hmc
        · rw [knapK_succ, if_pos hfit]
          exact hmc
        · exfalso
          apply heq
          rw [knapK_succ, if_pos hfit]
          exact hmc
      have hargs : Int.toNat ⌊((v + 1 : ℕ) : ℚ) - (foods.getD i defaultFood).weight⌋
          = Int.toNat ⌊((v : ℚ) + 1) - (foods.getD i defaultFood).weight⌋ := by
        rw [hcast]
      have hwnn : (0 : ℚ) ≤ ((v : ℚ) + 1) - (foods.getD i defaultFood).weight := by
        linarith
      have hfl : ((Int.toNat ⌊((v : ℚ) + 1) - (foods.getD i defaultFood).weight⌋ : ℕ) : ℚ)
          ≤ ((v : ℚ) + 1) - (foods.getD i defaultFood).weight := by
        have h0 : (0 : ℤ) ≤ ⌊((v : ℚ) + 1) - (foods.getD i defaultFood).weight⌋ :=
          Int.floor_nonneg.mpr hwnn
        have hle := Int.floor_le (((v : ℚ) + 1) - (foods.getD i defaultFood).weight)
        rw [← Int.toNat_of_nonneg h0] at hle
        exact_mod_cast hle
      constructor
      · rw [List.map_cons, totalCalories_cons, hargs,
          (ih (Int.toNat ⌊((v : ℚ) + 1) - (foods.getD i defaultFood).weight⌋)).1, hval]
      · rw [List.map_cons, totalWeight_cons, hargs, hcast]
        have hrest := (ih (Int.toNat ⌊((v : ℚ) + 1) - (foods.getD i defaultFood).weight⌋)).2
        linarith

/-- C3: the DP table satisfies `K[0][w] = 0`, `K[i][0] = 0` and the
0/1-knapsack recurrence (stated for an item whose weight is the
integer `k`, as the claim's integer table indexing presupposes); the
solver output is exactly the backward reconstruction walk from
`(n, W)`, and the reconstructed indices are strictly decreasing, i.e.
the returned items appear in reverse of their original input order. -/
theorem dynamic_table_recurrence_and_order (foods : List FoodItem) (W : ℕ) :
    (∀ w : ℕ, knapK foods 0 w = 0)
    ∧ (∀ i : ℕ, knapK foods i 0 = 0)
    ∧ (∀ i w k : ℕ, i < foods.length →
        (foods.getD i defaultFood).weight = (k : ℚ) →
        knapK foods (i + 1) (w + 1)
          = if (k : ℚ) ≤ (w : ℚ) + 1 then
              max (knapK foods i (w + 1))
                ((foods.getD i defaultFood).calories + knapK foods i (w + 1 - k))
            else knapK foods i (w + 1))
    ∧ dynamic_max_calories foods W
        = (reconstructIdx foods foods.length W).map (fun j => foods.getD j defaultFood)
    ∧ List.Pairwise (fun a b => b < a) (reconstructIdx foods foods.length W) := by
  refine ⟨fun w => rfl, knapK_w_zero foods, ?_, rfl,
    recon_pairwise foods foods.length W⟩
  intro i w k _ hwk
  rw [knapK_succ, hwk]
  by_cases hfit : (k : ℚ) ≤ (w : ℚ) + 1
  · have hkw : k ≤ w + 1 := by
      have : (k : ℚ) ≤ ((w + 1 : ℕ) : ℚ) := by push_cast; linarith
      exact_mod_cast this
    have hsubcast : ((w : ℚ) + 1) - (k : ℚ) = ((w + 1 - k : ℕ) : ℚ) := by
      rw [Nat.cast_sub hkw]
      push_cast
      ring
    have hfloor : Int.toNat ⌊((w : ℚ) + 1) - (k : ℚ)⌋ = w + 1 - k := by
      rw [hsubcast, Int.floor_natCast]
      exact Int.toNat_natCast _
    rw [if_pos hfit, if_pos hfit, hfloor, max_comm]
  · rw [if_neg hfit, if_neg hfit]

/-- Witness for `dynamic_table_recurrence_and_order` at a concrete input. -/
theorem dynamic_table_recurrence_and_order_witness :
    knapK [⟨"a", 2, 7⟩] 0 3 = 0
    ∧ knapK [⟨"a", 2, 7⟩] 1 0 = 0
    ∧ (knapK [⟨"a", 2, 7⟩] 1 3
        = if ((2 : ℕ) : ℚ) ≤ (2 : ℚ) + 1 then
            max (knapK [⟨"a", 2, 7⟩] 0 3)
              (([(⟨"a", 2, 7⟩ : FoodItem)].getD 0 defaultFood).calories
                + knapK [⟨"a", 2, 7⟩] 0 1)
          else knapK [⟨"a", 2, 7⟩] 0 3)
    ∧ dynamic_max_calories [⟨"a", 2, 7⟩] 3
        = (reconstructIdx [⟨"a", 2, 7⟩] 1 3).map
            (fun j => [(⟨"a", 2, 7⟩ : FoodItem)].getD j defaultFood)
    ∧ List.Pairwise (fun a b => b < a) (reconstructIdx [⟨"a", 2, 7⟩] 1 3) := by
  have h := dynamic_table_recurrence_and_order [⟨"a", 2, 7⟩] 3
  have h3 := h.2.2.1 0 2 2 (by norm_num) (by norm_num)
  have hc : ((2 : ℕ) : ℚ) = (2 : ℚ) := by norm_num
  exact ⟨h.1 3, h.2.1 1, h3, h.2.2.2.1, h.2.2.2.2⟩

/-! ### Dynamic programming: monotonicity in capacity -/

lemma knapK_nonneg (foods : List FoodItem) : ∀ i w, 0 ≤ knapK foods i w := by
  intro i
  induction i with
  | zero => intro w; exact le_of_eq rfl
  | succ i ih =>
    intro w
    cases w with
    | zero => rw [knapK_w_zero]
    | succ v =>
      rw [knapK_succ]
      by_cases hfit : (foods.getD i defaultFood).weight ≤ (v : ℚ) + 1
      · rw [if_pos hfit]
        exact le_trans (ih (v + 1)) (le_max_right _ _)
      · rw [if_neg hfit]
        exact ih (v + 1)

lemma knapK_mono (foods : List FoodItem) :
    ∀ i w w', w ≤ w' → knapK foods i w ≤ knapK foods i w' := by
  intro i
  induction i with
  | zero => intro w w' _; exact le_of_eq rfl
  | succ i ih =>
    intro w w' hww
    cases w with
    | zero =>
      rw [knapK_w_zero]
      exact knapK_nonneg foods (i + 1) w'
    | succ v =>
      obtain ⟨v', rfl⟩ : ∃ v', w' = v' + 1 := ⟨w' - 1, by omega⟩
      have hvv : v ≤ v' := by omega
      rw [knapK_succ, knapK_succ]
      by_cases hfit : (foods.getD i defaultFood).weight ≤ (v : ℚ) + 1
      · have hfit' : (foods.getD i defaultFood).weight ≤ (v' : ℚ) + 1 := by
          have : (v : ℚ) ≤ (v' : ℚ) := by exact_mod_cast hvv
          linarith
        rw [if_pos hfit, if_pos hfit']
        apply max_le_max
        · apply add_le_add_left
          apply ih
          apply Int.toNat_le_toNat
          apply Int.floor_le_floor
          have : (v : ℚ) ≤ (v' : ℚ) := by exact_mod_cast hvv
          linarith
        · exact ih (v + 1) (v' + 1) (by omega)
      · rw [if_neg hfit]
        by_cases hfit' : (foods.getD i defaultFood).weight ≤ (v' : ℚ) + 1
        · rw [if_pos hfit']
          exact le_trans (ih (v + 1) (v' + 1) (by omega)) (le_max_right _ _)
        · rw [if_neg hfit']
          exact ih (v + 1) (v' + 1) (by omega)

lemma dynamic_calories_eq_knapK (foods : List FoodItem) (W : ℕ) :
    totalCalories (dynamic_max_calories foods W) = knapK foods foods.length W := by
  rw [dynamic_max_calories]
  exact (recon_spec foods foods.length W).1

/-- C2 (amended): on a catalog of at most 30 items (the range where
the source's `int`-typed mask bound `pow(2, n)` is exact; beyond it
the bound computation overflows, see the C5 divergence) with positive
integer weights and non-negative calories, and a non-negative integer
capacity, the total calories of the exhaustive solver's subset equal
the total calories of the dynamic-programming solver's subset. -/
theorem solvers_agree (foods : List FoodItem) (W : ℕ)
    (hn : foods.length ≤ 30)
    (hw : ∀ x ∈ foods, ∃ k : ℕ, 0 < k ∧ x.weight = (k : ℚ))
    (hcal : ∀ x ∈ foods, 0 ≤ x.calories) :
    totalCalories (exhaustive_max_calories foods ((W : ℕ) : ℚ))
      = totalCalories (dynamic_max_calories foods W) := by
  have hw0 : ∀ x ∈ foods, 0 ≤ x.weight := by
    intro x hx
    obtain ⟨k, _, hk⟩ := hw x hx
    rw [hk]
    exact Nat.cast_nonneg k
  rw [exhaustive_eq_maxSubCal foods ((W : ℕ) : ℚ) (Nat.cast_nonneg W) hw0 hcal,
    dynamic_calories_eq_knapK foods W,
    knapK_eq_maxSubCal foods hw foods.length (le_refl _) W, List.take_length]

/-- Witness for `solvers_agree` at a concrete input. -/
theorem solvers_agree_witness :
    totalCalories (exhaustive_max_calories [⟨"a", 10, 20⟩, ⟨"b", 4, 5⟩] ((9 : ℕ) : ℚ))
      = totalCalories (dynamic_max_calories [⟨"a", 10, 20⟩, ⟨"b", 4, 5⟩] 9) := by
  apply solvers_agree [⟨"a", 10, 20⟩, ⟨"b", 4, 5⟩] 9 (by norm_num)
  · intro x hx
    rcases List.mem_cons.mp hx with h1 | h1
    · subst h1
      exact ⟨10, by norm_num, by norm_num⟩
    · rw [List.mem_singleton] at h1
      subst h1
      exact ⟨4, by norm_num, by norm_num⟩
  · intro x hx
    rcases List.mem_cons.mp hx with h1 | h1
    · subst h1; norm_num
    · rw [List.mem_singleton] at h1
      subst h1; norm_num

/-- C8 (amended): for a fixed catalog of valid items (positive
weights) with non-negative calories, each solver's optimal calorie
total is monotone in the capacity; the dynamic-programming half needs
no calorie assumption. -/
theorem solvers_monotone_in_capacity (foods : List FoodItem)
    (hw : ∀ x ∈ foods, 0 < x.weight) (hcal : ∀ x ∈ foods, 0 ≤ x.calories) :
    (∀ c1 c2 : ℚ, 0 ≤ c1 → c1 ≤ c2 →
      totalCalories (exhaustive_max_calories foods c1)
        ≤ totalCalories (exhaustive_max_calories foods c2))
    ∧ (∀ W1 W2 : ℕ, W1 ≤ W2 →
      totalCalories (dynamic_max_calories foods W1)
        ≤ totalCalories (dynamic_max_calories foods W2)) := by
  have hw0 : ∀ x ∈ foods, 0 ≤ x.weight := fun x hx => (hw x hx).le
  constructor
  · intro c1 c2 h0 h12
    rw [exhaustive_eq_maxSubCal foods c1 h0 hw0 hcal,
      exhaustive_eq_maxSubCal foods c2 (le_trans h0 h12) hw0 hcal]
    exact maxSubCal_mono foods c1 c2 h12
  · intro W1 W2 h
    rw [dynamic_calories_eq_knapK foods W1, dynamic_calories_eq_knapK foods W2]
    exact knapK_mono foods foods.length W1 W2 h

/-- Witness for `solvers_monotone_in_capacity` at a concrete input. -/
theorem solvers_monotone_in_capacity_witness :
    totalCalories (exhaustive_max_calories [⟨"a", 10, 20⟩] 3)
      ≤ totalCalories (exhaustive_max_calories [⟨"a", 10, 20⟩] 12)
    ∧ totalCalories (dynamic_max_calories [⟨"a", 10, 20⟩] 3)
      ≤ totalCalories (dynamic_max_calories [⟨"a", 10, 20⟩] 12) := by
  have h := solvers_monotone_in_capacity [⟨"a", 10, 20⟩]
    (by intro x hx; rw [List.mem_singleton] at hx; subst hx; norm_num)
    (by intro x hx; rw [List.mem_singleton] at hx; subst hx; norm_num)
  exact ⟨h.1 3 12 (by norm_num) (by norm_num), h.2 3 12 (by norm_num)⟩
